/-
Verification of the `aoclib` grid and number-extraction library.

The Rust sources (src/aoclib/src/grid.rs, src/aoclib/src/lib.rs) are shallowly
embedded below:
  * `Grid` mirrors `struct Grid<V> { values, width, height }` with `Vec`
    replaced by `List` and `usize` by `Nat` (no arithmetic here overflows).
  * Rust panics are modelled as error results: `Grid.parse` returns
    `Except GridError`, the other fallible operations return `Option`
    (`none` = panic).  `GridError.invalidGrid` is the explicit
    `panic!("Invalid grid, ...")`; `GridError.divByZero` is the runtime panic
    raised by `values.len() / width` when `width == 0`.
  * `&mut`-based cell mutation (`get_mut`) is modelled by the functional
    update `Grid.set` (read succeeds under exactly the same bounds check and
    writes to the same flat index).
  * Rust iterators become explicit cursor structures with a `next` function
    returning `Option (item × cursor)`; fuelled `collect` functions run them.
-/
import Mathlib

namespace Aoclib

/-- The error kinds with which `Grid` operations can panic. -/
inductive GridError where
  | invalidGrid : GridError
  | divByZero : GridError
deriving DecidableEq, Repr

/-- Embeds `struct Grid<V>` from grid.rs: row-major storage with fixed dimensions. -/
structure Grid (V : Type) where
  values : List V
  width : Nat
  height : Nat
deriving Repr

/-- Embeds `Grid::empty` from grid.rs lines 112-118. -/
def Grid.empty {V : Type} : Grid V := ⟨[], 0, 0⟩

/-- The newline byte `b'\n'`. -/
def NL : Nat := 10

/-- The `for line in &mut lines` loop body of `Grid::parse` (grid.rs lines
31-41): each line must have exactly `width` bytes and is appended to the
accumulated values; a line of differing length is forgiven only when it is
empty and nothing follows it (the `break`), otherwise the code panics with
"Invalid grid, found lines with different lengths". -/
def parseLines (width : Nat) : List (List Nat) → Except GridError (List Nat)
  | [] => .ok []
  | line :: rest =>
    if line.length = width then
      match parseLines width rest with
      | .ok tail => .ok (line ++ tail)
      | .error e => .error e
    else if line.isEmpty ∧ rest.isEmpty then .ok []
    else .error .invalidGrid

/-- Embeds `Grid::parse` (grid.rs lines 21-50).  `grid.split(|c| *c == b'\n')` on a
Rust slice always yields at least one subslice (an empty slice splits to one
empty subslice), exactly as `List.splitOn` does, so the `None => Self::empty()`
arm is dead code; it is kept for faithfulness.  The final
`values.len() / width` panics with a division-by-zero when `width = 0`, which
the embedding surfaces as `GridError.divByZero`. -/
def Grid.parse (grid : List Nat) : Except GridError (Grid Nat) :=
  match grid.splitOn NL with
  | [] => .ok Grid.empty
  | first_line :: rest =>
    let width := first_line.length
    match parseLines width rest with
    | .error e => .error e
    | .ok tail =>
      let values := first_line ++ tail
      if width = 0 then .error .divByZero
      else .ok ⟨values, width, values.length / width⟩

/-- The spec's description of admissible line splits after the first line:
every subsequent line has exactly `w` bytes, except that a single trailing
empty line (from a single trailing newline) is permitted. -/
def tailOk (w : Nat) (rest : List (List Nat)) : Prop :=
  (∀ l ∈ rest, l.length = w) ∨
  (∃ init, rest = init ++ [[]] ∧ ∀ l ∈ init, l.length = w)

/-- The `while !remainder.is_empty()` loop of `Grid::format_ascii` (grid.rs
lines 86-94): peel off `width` bytes at a time, appending a newline after each
chunk.  In the source this loop never terminates when `width = 0` and the
values are nonempty; that state is unreachable for any grid built by the
constructors (the shape invariant gives `values.length = width * height`), and
the embedding returns `[]` there to stay total. -/
def formatChunks (width : Nat) (v : List Nat) : List Nat :=
  if v = [] then []
  else if width = 0 then []
  else v.take width ++ [NL] ++ formatChunks width (v.drop width)
termination_by v.length
decreasing_by
  rename_i h1 h2
  have hv : 0 < v.length := List.length_pos.mpr h1
  have : v.length - width < v.length := Nat.sub_lt hv (Nat.pos_of_ne_zero h2)
  simpa using this

/-- Embeds `Grid::format_ascii` (grid.rs lines 79-97): panics (here: `none`) when a
stored byte is outside the ASCII range, otherwise emits every row followed by
a newline. -/
def Grid.format_ascii (g : Grid Nat) : Option (List Nat) :=
  if g.values.all (fun b => b ≤ 127) then some (formatChunks g.width g.values)
  else none

/-- Embeds `Grid::coords_to_slice_index` (grid.rs lines 120-125): asserts both bounds
(`none` = assertion panic), then returns the row-major flat index. -/
def Grid.coords_to_slice_index {V : Type} (g : Grid V) (x y : Nat) : Option Nat :=
  if x < g.width ∧ y < g.height then some (y * g.width + x) else none

/-- Embeds `Grid::slice_index_to_coords` (grid.rs lines 127-134): asserts
`index < width * height`, then splits the flat index by `% width` and
`/ width`. -/
def Grid.slice_index_to_coords {V : Type} (g : Grid V) (index : Nat) : Option (Nat × Nat) :=
  if index < g.width * g.height then some (index % g.width, index / g.width) else none

/-- Embeds `Grid::get` (grid.rs lines 141-143): bounds-checked coordinate lookup; the
inner `self.values[index]` indexing can itself panic when the vector is
shorter than `width * height`, hence the second `Option` layer via `get?`. -/
def Grid.get {V : Type} (g : Grid V) (x y : Nat) : Option V :=
  match g.coords_to_slice_index x y with
  | none => none
  | some i => g.values.get? i

/-- Embeds `Grid::get_mut` (grid.rs lines 150-153) used as a writer: compute the same
flat index as `get`, then overwrite that cell in place. -/
def Grid.set {V : Type} (g : Grid V) (x y : Nat) (v : V) : Option (Grid V) :=
  match g.coords_to_slice_index x y with
  | none => none
  | some i =>
    if i < g.values.length then some { g with values := g.values.set i v } else none

/-- Embeds `struct GridRow` (grid.rs lines 220-224). -/
structure GridRow (V : Type) where
  row : Nat
  grid : Grid V

/-- Embeds `struct GridCol` (grid.rs lines 247-251). -/
structure GridCol (V : Type) where
  col : Nat
  grid : Grid V

/-- Embeds `Grid::row` (grid.rs lines 160-164): asserts `row < height`. -/
def Grid.row {V : Type} (g : Grid V) (row : Nat) : Option (GridRow V) :=
  if row < g.height then some ⟨row, g⟩ else none

/-- Embeds `Grid::col` (grid.rs lines 171-175): asserts `col < width`. -/
def Grid.col {V : Type} (g : Grid V) (col : Nat) : Option (GridCol V) :=
  if col < g.width then some ⟨col, g⟩ else none

/-- Embeds `struct GridRowIter` (grid.rs lines 274-279). -/
structure GridRowIter (V : Type) where
  grid : Grid V
  row : Nat
  col : Nat

/-- Embeds `struct GridColIter` (grid.rs lines 295-300). -/
structure GridColIter (V : Type) where
  grid : Grid V
  row : Nat
  col : Nat

/-- Embeds `<GridRow as IntoIterator>::into_iter` (grid.rs lines 238-244). -/
def GridRow.intoIter {V : Type} (r : GridRow V) : GridRowIter V :=
  ⟨r.grid, r.row, 0⟩

/-- Embeds `<GridCol as IntoIterator>::into_iter` (grid.rs lines 265-271). -/
def GridCol.intoIter {V : Type} (c : GridCol V) : GridColIter V :=
  ⟨c.grid, 0, c.col⟩

/-- Embeds `<GridRowIter as Iterator>::next` (grid.rs lines 284-292): while the
column cursor is in range, yield `grid.get(col, row)` and advance.  The yielded
item is an `Option V` because the inner `get` call can panic. -/
def GridRowIter.next {V : Type} (it : GridRowIter V) : Option (Option V × GridRowIter V) :=
  if it.col < it.grid.width then
    some (it.grid.get it.col it.row, ⟨it.grid, it.row, it.col + 1⟩)
  else none

/-- Embeds `<GridColIter as Iterator>::next` (grid.rs lines 305-313). -/
def GridColIter.next {V : Type} (it : GridColIter V) : Option (Option V × GridColIter V) :=
  if it.row < it.grid.height then
    some (it.grid.get it.col it.row, ⟨it.grid, it.row + 1, it.col⟩)
  else none

/-- Run a row iterator to exhaustion (bounded by `fuel`), collecting the
yielded items in order. -/
def GridRowIter.collect {V : Type} : Nat → GridRowIter V → List (Option V)
  | 0, _ => []
  | fuel + 1, it =>
    match it.next with
    | none => []
    | some (v, it2) => v :: it2.collect fuel

/-- Run a column iterator to exhaustion (bounded by `fuel`), collecting the
yielded items in order. -/
def GridColIter.collect {V : Type} : Nat → GridColIter V → List (Option V)
  | 0, _ => []
  | fuel + 1, it =>
    match it.next with
    | none => []
    | some (v, it2) => v :: it2.collect fuel

/-- Embeds `Grid::map` (grid.rs lines 178-187). -/
def Grid.map {V W : Type} (g : Grid V) (f : V → W) : Grid W :=
  ⟨g.values.map f, g.width, g.height⟩

/-- The `enumerate().map(...)` pipeline of `Grid::map_indexed` (grid.rs lines
195-203), carrying the running flat index: each value's coordinates come from
`slice_index_to_coords`, whose assertion can panic. -/
def mapIndexedVals {V W : Type} (g : Grid V) (f : V → Nat → Nat → W) :
    Nat → List V → Option (List W)
  | _, [] => some []
  | i, v :: rest =>
    match g.slice_index_to_coords i with
    | none => none
    | some (x, y) =>
      match mapIndexedVals g f (i + 1) rest with
      | none => none
      | some tail => some (f v x y :: tail)

/-- Embeds `Grid::map_indexed` (grid.rs lines 190-207). -/
def Grid.map_indexed {V W : Type} (g : Grid V) (f : V → Nat → Nat → W) : Option (Grid W) :=
  match mapIndexedVals g f 0 g.values with
  | none => none
  | some vals => some ⟨vals, g.width, g.height⟩

/-! ## Number extraction (src/aoclib/src/lib.rs)

The scanner operates on a `&str`.  For the observable behaviour (which tokens
are produced) the string is modelled as its list of characters; `str::find`
returns the position of the first matching character and slicing happens at
character positions.  This is faithful: Rust's byte indices and the character
indices used here delimit the same characters, and the byte look-behind
`as_bytes().get(index - 1) == Some(&b'-')` holds exactly when the character
before the found digit is `'-'` (a multi-byte character's bytes are all
≥ 0x80, so none of them equals `b'-'`).  The byte-level index computations are
modelled separately below for the slice-boundary safety analysis. -/

/-- Embeds `char::is_ascii_digit`. -/
def isAsciiDigit (c : Char) : Bool := 48 ≤ c.toNat ∧ c.toNat ≤ 57

/-- Embeds `str::find(p)` in the character model: the position of the first character
satisfying `p`. -/
def findCharIdx (p : Char → Bool) : List Char → Option Nat
  | [] => none
  | c :: rest => if p c then some 0 else (findCharIdx p rest).map (· + 1)

/-- Embeds `struct ExtractNumbers<'a>` (lib.rs lines 61-63): the remaining unscanned
suffix of the source text. -/
structure ExtractNumbers where
  remainder : List Char
deriving DecidableEq, Repr

/-- Embeds `<ExtractNumbers as Iterator>::next` (lib.rs lines 68-94): find the next
ASCII digit; widen the match one position to the left when the preceding
character is `'-'`; extend it right across the maximal digit run; return the
matched slice and keep the text after it.  When no digit remains, set the
remainder to `""` and return `None`. -/
def ExtractNumbers.next (s : ExtractNumbers) : Option (List Char) × ExtractNumbers :=
  match findCharIdx isAsciiDigit s.remainder with
  | some index =>
    let start :=
      if 0 < index ∧ s.remainder.get? (index - 1) = some '-' then index - 1 else index
    let rem_after_index := s.remainder.drop (index + 1)
    let stop := (index + 1) +
      ((findCharIdx (fun c => !isAsciiDigit c) rem_after_index).getD rem_after_index.length)
    (some ((s.remainder.drop start).take (stop - start)), ⟨s.remainder.drop stop⟩)
  | none => (none, ⟨[]⟩)

/-- Drain the scanner (bounded by `fuel`), collecting the produced tokens. -/
def ExtractNumbers.collect : Nat → ExtractNumbers → List (List Char)
  | 0, _ => []
  | fuel + 1, s =>
    match s.next with
    | (some tok, s2) => tok :: s2.collect fuel
    | (none, _) => []

/-- Modelled from the spec: the expected output of the scanner, written
structurally — the maximal runs of ASCII decimal digits in left-to-right
order, a run being prefixed by `'-'` exactly when a `'-'` immediately
precedes its first digit. -/
def specScan : List Char → List (List Char)
  | [] => []
  | c :: rest =>
    if isAsciiDigit c then
      (c :: rest.takeWhile isAsciiDigit) :: specScan (rest.dropWhile isAsciiDigit)
    else if c = '-' ∧ rest.head?.any isAsciiDigit then
      ('-' :: rest.takeWhile isAsciiDigit) :: specScan (rest.dropWhile isAsciiDigit)
    else specScan rest
termination_by l => l.length
decreasing_by
  all_goals simp only [List.length_cons]
  all_goals
    have hle : (List.dropWhile isAsciiDigit rest).length ≤ rest.length :=
      List.Sublist.length_le (List.dropWhile_sublist isAsciiDigit)
  all_goals omega

/-! ## Byte-level model of the scanner's index computations

`ExtractNumbers::next` slices a `&str` at byte indices; a slice operation
panics when an index is out of bounds or not on a UTF-8 character boundary.
To state the safety of those slices, the byte positions the code computes are
reproduced here over the character-list model. -/

/-- The UTF-8 encoding of a character, as its list of bytes. -/
def utf8Bytes (c : Char) : List Nat :=
  let n := c.toNat
  if n < 128 then [n]
  else if n < 2048 then [192 + n / 64, 128 + n % 64]
  else if n < 65536 then [224 + n / 4096, 128 + n / 64 % 64, 128 + n % 64]
  else [240 + n / 262144, 128 + n / 4096 % 64, 128 + n / 64 % 64, 128 + n % 64]

/-- The byte sequence `str::as_bytes` of a string given as its characters. -/
def strBytes (l : List Char) : List Nat := (l.map utf8Bytes).flatten

/-- Total UTF-8 byte length of a string. -/
def byteLen (l : List Char) : Nat := (strBytes l).length

/-- The byte index returned by `str::find(p)`: the byte length of the maximal
prefix of characters not satisfying `p`, when a match exists. -/
def findByteIdx (p : Char → Bool) : List Char → Option Nat
  | [] => none
  | c :: rest =>
    if p c then some 0 else (findByteIdx p rest).map (fun i => (utf8Bytes c).length + i)

/-- Byte position `i` is a character boundary of the string `l`: some prefix
of whole characters occupies exactly `i` bytes.  Slicing a `&str` at `i` is
safe exactly when this holds (which also forces `i ≤ byteLen l`). -/
def IsBoundary (l : List Char) (i : Nat) : Prop :=
  ∃ a b, l = a ++ b ∧ byteLen a = i

/-- The byte index at which the emitted slice starts (lib.rs lines 71-76):
`index - 1` when `index > 0` and the byte before the found digit is `b'-'`
(byte value 45), else `index` itself. -/
def scanStart (s : List Char) (index : Nat) : Nat :=
  if 0 < index ∧ (strBytes s).get? (index - 1) = some 45 then index - 1 else index

/-- The byte index just past the emitted slice (lib.rs lines 78-82):
`index + 1` plus the byte offset of the first non-digit in the text after the
digit (`b` is that text), or the whole remaining length if none. -/
def scanStop (index : Nat) (b : List Char) : Nat :=
  index + 1 + ((findByteIdx (fun c => !isAsciiDigit c) b).getD (byteLen b))

/-- All slice positions `ExtractNumbers::next` computes when the first digit
of `s` sits at byte index `index` are in bounds and on character boundaries:
`index + 1` (start of `rem_after_index`), the token start (only widened to
`index - 1` when `index > 0`), and the token end. -/
def SafeStep (s : List Char) (index : Nat) : Prop :=
  ∃ a d b, s = a ++ d :: b ∧ byteLen a = index ∧ isAsciiDigit d = true ∧
    IsBoundary s (index + 1) ∧
    IsBoundary s (scanStart s index) ∧
    IsBoundary s (scanStop index b) ∧
    scanStart s index ≤ scanStop index b ∧
    scanStop index b ≤ byteLen s ∧
    (index = 0 → scanStart s index = index)

/-! ## Theorems -/

/-- C1: the spec says parsing the empty input yields the empty grid
(width 0, height 0).  The code instead panics: a Rust slice split always
yields at least one (empty) subslice, so the `None => Self::empty()` arm never
runs, `width` is 0, and `values.len() / width` divides by zero. -/
theorem parse_empty_input_divides_by_zero :
    Grid.parse [] = .error .divByZero := by
  rfl

-- For coordinates in range, the flat index is in range of the value storage.
theorem flat_index_lt (w h x y : Nat) (hx : x < w) (hy : y < h) :
    y * w + x < w * h := by
  calc y * w + x < (y + 1) * w := by nlinarith
    _ ≤ h * w := Nat.mul_le_mul_right _ (by omega)
    _ = w * h := Nat.mul_comm _ _

/-- C6: converting in-range coordinates `(x, y)` to the flat index
`y * width + x` and back is the identity, and converting a valid flat index to
coordinates and back is the identity. -/
theorem coords_index_roundtrip :
    ∀ (V : Type) (g : Grid V),
      (∀ x y, x < g.width → y < g.height →
        g.coords_to_slice_index x y = some (y * g.width + x) ∧
        g.slice_index_to_coords (y * g.width + x) = some (x, y)) ∧
      (∀ i, i < g.width * g.height →
        ∃ x y, g.slice_index_to_coords i = some (x, y) ∧
          g.coords_to_slice_index x y = some i) := by
  intro V g
  constructor
  · intro x y hx hy
    have hw : 0 < g.width := by omega
    have hidx : y * g.width + x < g.width * g.height := flat_index_lt _ _ _ _ hx hy
    refine ⟨by simp [Grid.coords_to_slice_index, hx, hy], ?_⟩
    have h1 : (y * g.width + x) % g.width = x := by
      rw [Nat.add_comm, Nat.add_mul_mod_self_right, Nat.mod_eq_of_lt hx]
    have h2 : (y * g.width + x) / g.width = y := by
      rw [Nat.add_comm, Nat.add_mul_div_right _ _ hw, Nat.div_eq_of_lt hx]
      omega
    simp [Grid.slice_index_to_coords, hidx, h1, h2]
  · intro i hi
    have hw : 0 < g.width := by
      rcases Nat.eq_zero_or_pos g.width with h | h
      · rw [h] at hi; omega
      · exact h
    refine ⟨i % g.width, i / g.width, by simp [Grid.slice_index_to_coords, hi], ?_⟩
    have hx : i % g.width < g.width := Nat.mod_lt _ hw
    have hy : i / g.width < g.height := by
      rw [Nat.div_lt_iff_lt_mul hw]
      calc i < g.width * g.height := hi
        _ = g.height * g.width := Nat.mul_comm _ _
    have hsum : i / g.width * g.width + i % g.width = i := by
      rw [Nat.mul_comm, Nat.div_add_mod]
    simp [Grid.coords_to_slice_index, hx, hy, hsum]

/-- C7: with the shape invariant, `get`, `get_mut` (modelled as `set`), `row`
and `col` fail exactly when the supplied coordinate is out of range for the
dimension it indexes, and otherwise succeed, `get` returning the cell at flat
index `y * width + x`. -/
theorem accessor_bounds_check :
    ∀ (V : Type) (g : Grid V), g.values.length = g.width * g.height →
      (∀ x y,
        (g.get x y = none ↔ ¬(x < g.width ∧ y < g.height)) ∧
        (x < g.width → y < g.height →
          g.get x y = g.values.get? (y * g.width + x) ∧ ∃ v, g.get x y = some v)) ∧
      (∀ (x y : Nat) (v : V),
        ((g.set x y v).isNone ↔ ¬(x < g.width ∧ y < g.height))) ∧
      (∀ r, ((g.row r).isNone ↔ ¬ r < g.height)) ∧
      (∀ c, ((g.col c).isNone ↔ ¬ c < g.width)) := by
  intro V g hinv
  have hget : ∀ x y, x < g.width → y < g.height →
      g.get x y = g.values.get? (y * g.width + x) ∧ ∃ v, g.get x y = some v := by
    intro x y hx hy
    have hidx : y * g.width + x < g.values.length := by
      rw [hinv]; exact flat_index_lt _ _ _ _ hx hy
    have : g.get x y = g.values.get? (y * g.width + x) := by
      simp [Grid.get, Grid.coords_to_slice_index, hx, hy]
    refine ⟨this, ?_⟩
    rw [this, List.get?_eq_getElem?, List.getElem?_eq_getElem hidx]
    exact ⟨_, rfl⟩
  refine ⟨?_, ?_, ?_, ?_⟩
  · intro x y
    constructor
    · constructor
      · intro hnone hxy
        rcases (hget x y hxy.1 hxy.2).2 with ⟨v, hv⟩
        rw [hv] at hnone; cases hnone
      · intro hxy
        simp [Grid.get, Grid.coords_to_slice_index, hxy]
    · exact hget x y
  · intro x y v
    by_cases hxy : x < g.width ∧ y < g.height
    · have hidx : y * g.width + x < g.values.length := by
        rw [hinv]; exact flat_index_lt _ _ _ _ hxy.1 hxy.2
      simp [Grid.set, Grid.coords_to_slice_index, hxy, hidx]
    · simp [Grid.set, Grid.coords_to_slice_index, hxy]
  · intro r
    by_cases hr : r < g.height <;> simp [Grid.row, hr]
  · intro c
    by_cases hc : c < g.width <;> simp [Grid.col, hc]

/-- Closed instance of `accessor_bounds_check` on the 2×2 grid `ab\ncd`. -/
theorem accessor_bounds_check_witness :
    ((4 : Nat) = 2 * 2) ∧
    ((Grid.mk [97, 98, 99, 100] 2 2).get 1 1 = some 100 ∧
      (Grid.mk [97, 98, 99, 100] 2 2).get 2 0 = none) := by
  have h := accessor_bounds_check Nat (Grid.mk [97, 98, 99, 100] 2 2) (by decide)
  refine ⟨by decide, by decide, ?_⟩
  exact ((h.1 2 0).1).mpr (by decide)

/-- Closed instance of `coords_index_roundtrip` on a 3×2 grid. -/
theorem coords_index_roundtrip_witness :
    (Grid.mk ([] : List Nat) 3 2).coords_to_slice_index 2 1 = some 5 ∧
    (Grid.mk ([] : List Nat) 3 2).slice_index_to_coords 5 = some (2, 1) := by
  exact (coords_index_roundtrip Nat (Grid.mk [] 3 2)).1 2 1 (by decide) (by decide)

-- Accepted line blocks always contribute a multiple of `width` bytes.
theorem parseLines_ok_dvd (width : Nat) :
    ∀ (rest : List (List Nat)) (tail : List Nat),
      parseLines width rest = .ok tail → width ∣ tail.length := by
  intro rest
  induction rest with
  | nil =>
    intro tail h
    simp only [parseLines] at h
    cases h
    simp
  | cons line rest ih =>
    intro tail h
    simp only [parseLines] at h
    split at h
    · rename_i hlen
      cases htail : parseLines width rest with
      | ok t2 =>
        rw [htail] at h
        cases h
        rcases ih t2 htail with ⟨k, hk⟩
        exact ⟨k + 1, by simp [hk, hlen]; ring⟩
      | error e => rw [htail] at h; cases h
    · split at h
      · cases h; simp
      · cases h

-- `Grid.parse` only succeeds with a nonzero width, values made of the first
-- line plus the accepted tail, and height equal to `values.length / width`.
theorem parse_ok_shape (input : List Nat) (g : Grid Nat)
    (h : Grid.parse input = .ok g) :
    ∃ first rest tail,
      input.splitOn NL = first :: rest ∧
      parseLines first.length rest = .ok tail ∧
      first.length ≠ 0 ∧
      g = ⟨first ++ tail, first.length, (first ++ tail).length / first.length⟩ := by
  unfold Grid.parse at h
  cases hsplit : input.splitOn NL with
  | nil =>
    exfalso
    have := List.splitOnP_ne_nil (· == NL) input
    simp only [List.splitOn] at hsplit
    exact this hsplit
  | cons first rest =>
    rw [hsplit] at h
    simp only at h
    cases htail : parseLines first.length rest with
    | error e => rw [htail] at h; cases h
    | ok tail =>
      rw [htail] at h
      simp only at h
      split at h
      · cases h
      · rename_i hw
        cases h
        exact ⟨first, rest, tail, rfl, htail, hw, rfl⟩

-- The `enumerate`-with-coordinates pipeline of `map_indexed`, described
-- pointwise: it succeeds whenever every running index stays below
-- `width * height`, and the output at position `j` applies `f` to the input
-- at `j` and the coordinates decoded from `i0 + j`.
theorem mapIndexedVals_spec {V W : Type} (g : Grid V) (f : V → Nat → Nat → W) :
    ∀ (vs : List V) (i0 : Nat), i0 + vs.length ≤ g.width * g.height →
      ∃ ws, mapIndexedVals g f i0 vs = some ws ∧ ws.length = vs.length ∧
        ∀ j, ws.get? j =
          (vs.get? j).map (fun v => f v ((i0 + j) % g.width) ((i0 + j) / g.width)) := by
  intro vs
  induction vs with
  | nil =>
    intro i0 _
    exact ⟨[], rfl, rfl, by intro j; simp⟩
  | cons v vs ih =>
    intro i0 hle
    have hi0 : i0 < g.width * g.height := by simp at hle; omega
    rcases ih (i0 + 1) (by simp at hle ⊢; omega) with ⟨ws, hws, hlen, hpt⟩
    refine ⟨f v (i0 % g.width) (i0 / g.width) :: ws, ?_, by simp [hlen], ?_⟩
    · simp only [mapIndexedVals, Grid.slice_index_to_coords, if_pos hi0, hws]
    · intro j
      cases j with
      | zero => simp
      | succ j =>
        simp only [List.get?_cons_succ, hpt j]
        have : i0 + 1 + j = i0 + (j + 1) := by omega
        rw [this]

/-- C4: every constructor (`parse`, `map`, `map_indexed`) yields a grid
satisfying `values.length = width * height`, and no operation (`map`,
`map_indexed`, writes through `get_mut`) changes a grid's width or height. -/
theorem shape_invariant :
    (∀ (input : List Nat) (g : Grid Nat), Grid.parse input = .ok g →
      g.values.length = g.width * g.height) ∧
    (∀ (V W : Type) (g : Grid V) (f : V → W),
      (g.map f).width = g.width ∧ (g.map f).height = g.height ∧
      (g.values.length = g.width * g.height →
        (g.map f).values.length = (g.map f).width * (g.map f).height)) ∧
    (∀ (V W : Type) (g : Grid V) (f : V → Nat → Nat → W),
      g.values.length = g.width * g.height →
      ∃ g', g.map_indexed f = some g' ∧ g'.width = g.width ∧ g'.height = g.height ∧
        g'.values.length = g'.width * g'.height) ∧
    (∀ (V : Type) (g : Grid V) (x y : Nat) (v : V) (g' : Grid V),
      g.set x y v = some g' →
      g'.width = g.width ∧ g'.height = g.height ∧
      (g.values.length = g.width * g.height →
        g'.values.length = g'.width * g'.height)) := by
  refine ⟨?_, ?_, ?_, ?_⟩
  · intro input g h
    rcases parse_ok_shape input g h with ⟨first, rest, tail, _, htail, hw, hg⟩
    rcases parseLines_ok_dvd first.length rest tail htail with ⟨k, hk⟩
    subst hg
    simp only [List.length_append, hk]
    have : first.length + first.length * k = first.length * (1 + k) := by ring
    rw [this, Nat.mul_div_cancel_left _ (Nat.pos_of_ne_zero hw)]
  · intro V W g f
    exact ⟨rfl, rfl, by intro h; simpa [Grid.map] using h⟩
  · intro V W g f hinv
    rcases mapIndexedVals_spec g f g.values 0 (by omega) with ⟨ws, hws, hlen, _⟩
    refine ⟨⟨ws, g.width, g.height⟩, ?_, rfl, rfl, ?_⟩
    · simp [Grid.map_indexed, hws]
    · simpa [hlen] using hinv
  · intro V g x y v g' h
    simp only [Grid.set] at h
    split at h
    · cases h
    · split at h
      · cases h
        exact ⟨rfl, rfl, by intro hinv; simpa using hinv⟩
      · cases h

/-- Closed instance of `shape_invariant`: parsing `ab\ncd\n` yields a grid
satisfying the shape invariant. -/
theorem shape_invariant_witness :
    Grid.parse [97, 98, NL, 99, 100, NL] = .ok (Grid.mk [97, 98, 99, 100] 2 2) ∧
    ([97, 98, 99, 100] : List Nat).length = 2 * 2 := by
  refine ⟨rfl, ?_⟩
  exact shape_invariant.1 [97, 98, NL, 99, 100, NL] (Grid.mk [97, 98, 99, 100] 2 2) rfl

/-- C8: `map f` keeps the dimensions and applies `f` cellwise; `map_indexed`
keeps the dimensions and applies `f` to each cell together with its own
coordinates. -/
theorem map_cellwise :
    (∀ (V W : Type) (g : Grid V) (f : V → W),
      (g.map f).width = g.width ∧ (g.map f).height = g.height ∧
      ∀ x y, (g.map f).get x y = (g.get x y).map f) ∧
    (∀ (V W : Type) (g : Grid V) (f : V → Nat → Nat → W),
      g.values.length = g.width * g.height →
      ∃ g', g.map_indexed f = some g' ∧ g'.width = g.width ∧ g'.height = g.height ∧
        ∀ x y, x < g.width → y < g.height →
          g'.get x y = (g.get x y).map (fun v => f v x y)) := by
  constructor
  · intro V W g f
    refine ⟨rfl, rfl, ?_⟩
    intro x y
    simp only [Grid.get, Grid.map, Grid.coords_to_slice_index]
    split
    · simp
    · simp [List.get?_eq_getElem?, List.getElem?_map]
  · intro V W g f hinv
    rcases mapIndexedVals_spec g f g.values 0 (by omega) with ⟨ws, hws, hlen, hpt⟩
    refine ⟨⟨ws, g.width, g.height⟩, by simp [Grid.map_indexed, hws], rfl, rfl, ?_⟩
    intro x y hx hy
    have hw : 0 < g.width := by omega
    have hmod : (y * g.width + x) % g.width = x := by
      rw [Nat.add_comm, Nat.add_mul_mod_self_right, Nat.mod_eq_of_lt hx]
    have hdiv : (y * g.width + x) / g.width = y := by
      rw [Nat.add_comm, Nat.add_mul_div_right _ _ hw, Nat.div_eq_of_lt hx]
      omega
    have := hpt (y * g.width + x)
    simp only [Nat.zero_add, hmod, hdiv] at this
    simp only [Grid.get, Grid.coords_to_slice_index, hx, hy, and_self, if_pos]
    exact this

/-- Closed instance of `map_cellwise`: doubling every cell of `12\n34`. -/
theorem map_cellwise_witness :
    ((Grid.mk [1, 2, 3, 4] 2 2).map (fun v => 2 * v)).get 1 0 =
      ((Grid.mk [1, 2, 3, 4] 2 2).get 1 0).map (fun v => 2 * v) := by
  exact (map_cellwise.1 Nat Nat (Grid.mk [1, 2, 3, 4] 2 2) (fun v => 2 * v)).2.2 1 0

-- Running a row iterator from column cursor `c` with `c + n = width` yields
-- `get` at columns `c, c+1, ..., width-1`.
theorem rowIter_collect_go {V : Type} (g : Grid V) (r : Nat) :
    ∀ (n c : Nat), c + n = g.width →
      GridRowIter.collect (n + 1) ⟨g, r, c⟩ =
        (List.range' c n).map (fun x => g.get x r) := by
  intro n
  induction n with
  | zero =>
    intro c hc
    simp only [GridRowIter.collect, GridRowIter.next]
    rw [if_neg (by omega)]
    simp
  | succ n ih =>
    intro c hc
    have hlt : c < g.width := by omega
    simp only [GridRowIter.collect, GridRowIter.next, if_pos hlt]
    rw [List.range'_succ, List.map_cons]
    exact congrArg _ (ih (c + 1) (by omega))

-- Same for a column iterator over rows.
theorem colIter_collect_go {V : Type} (g : Grid V) (c : Nat) :
    ∀ (n r : Nat), r + n = g.height →
      GridColIter.collect (n + 1) ⟨g, r, c⟩ =
        (List.range' r n).map (fun y => g.get c y) := by
  intro n
  induction n with
  | zero =>
    intro r hr
    simp only [GridColIter.collect, GridColIter.next]
    rw [if_neg (by omega)]
    simp
  | succ n ih =>
    intro r hr
    have hlt : r < g.height := by omega
    simp only [GridColIter.collect, GridColIter.next, if_pos hlt]
    rw [List.range'_succ, List.map_cons]
    exact congrArg _ (ih (r + 1) (by omega))

/-- C5: iterating the view `row r` (for in-range `r`) yields exactly
`[get 0 r, get 1 r, ..., get (width-1) r]` in increasing column order, and
iterating `col c` (for in-range `c`) yields exactly
`[get c 0, get c 1, ..., get c (height-1)]` in increasing row order. -/
theorem row_col_iteration :
    (∀ (V : Type) (g : Grid V) (r : Nat) (rv : GridRow V), g.row r = some rv →
      rv.intoIter.collect (g.width + 1) =
        (List.range g.width).map (fun x => g.get x r)) ∧
    (∀ (V : Type) (g : Grid V) (c : Nat) (cv : GridCol V), g.col c = some cv →
      cv.intoIter.collect (g.height + 1) =
        (List.range g.height).map (fun y => g.get c y)) := by
  constructor
  · intro V g r rv h
    simp only [Grid.row] at h
    split at h
    · cases h
      rw [GridRow.intoIter, List.range_eq_range']
      exact rowIter_collect_go g r g.width 0 (by omega)
    · cases h
  · intro V g c cv h
    simp only [Grid.col] at h
    split at h
    · cases h
      rw [GridCol.intoIter, List.range_eq_range']
      exact colIter_collect_go g c g.height 0 (by omega)
    · cases h

/-- Closed instance of `row_col_iteration` on the grid `ab\ncd`. -/
theorem row_col_iteration_witness :
    (Grid.mk [97, 98, 99, 100] 2 2).row 1 = some (GridRow.mk 1 (Grid.mk [97, 98, 99, 100] 2 2)) ∧
    (GridRow.mk 1 (Grid.mk [97, 98, 99, 100] 2 2)).intoIter.collect 3 =
      [some 99, some 100] := by
  refine ⟨rfl, ?_⟩
  have h := row_col_iteration.1 Nat (Grid.mk [97, 98, 99, 100] 2 2) 1
    (GridRow.mk 1 (Grid.mk [97, 98, 99, 100] 2 2)) rfl
  simpa using h

-- The loop only ever panics with the "different lengths" message.
theorem parseLines_error_invalidGrid (w : Nat) :
    ∀ (rest : List (List Nat)) (e : GridError),
      parseLines w rest = .error e → e = .invalidGrid := by
  intro rest
  induction rest with
  | nil => intro e h; simp only [parseLines] at h; cases h
  | cons line rest ih =>
    intro e h
    simp only [parseLines] at h
    split at h
    · cases hrec : parseLines w rest with
      | ok t => rw [hrec] at h; cases h
      | error e2 => rw [hrec] at h; cases h; exact ih _ hrec
    · split at h
      · cases h
      · cases h; rfl

-- A line of the expected length neither helps nor harms admissibility.
theorem tailOk_cons (w : Nat) (line : List Nat) (rest : List (List Nat))
    (hlen : line.length = w) : tailOk w (line :: rest) ↔ tailOk w rest := by
  constructor
  · rintro (h | ⟨init, heq, hall⟩)
    · exact Or.inl fun l hl => h l (List.mem_cons_of_mem _ hl)
    · cases init with
      | nil =>
        simp only [List.nil_append, List.cons.injEq] at heq
        rw [heq.2]
        exact Or.inl (by simp)
      | cons i0 init =>
        simp only [List.cons_append, List.cons.injEq] at heq
        exact Or.inr ⟨init, heq.2, fun l hl => hall l (heq.1 ▸ List.mem_cons_of_mem _ hl)⟩
  · rintro (h | ⟨init, heq, hall⟩)
    · exact Or.inl fun l hl => by
        rcases List.mem_cons.mp hl with h1 | h1
        · rw [h1, hlen]
        · exact h l h1
    · refine Or.inr ⟨line :: init, by rw [heq, List.cons_append], ?_⟩
      intro l hl
      rcases List.mem_cons.mp hl with h1 | h1
      · rw [h1, hlen]
      · exact hall l h1

-- The loop rejects the tail lines exactly when they are inadmissible.
theorem parseLines_invalidGrid_iff (w : Nat) :
    ∀ rest : List (List Nat),
      parseLines w rest = .error .invalidGrid ↔ ¬ tailOk w rest := by
  intro rest
  induction rest with
  | nil =>
    simp only [parseLines]
    constructor
    · intro h; cases h
    · intro h; exact absurd (Or.inl (by simp)) h
  | cons line rest ih =>
    simp only [parseLines]
    split
    · rename_i hlen
      rw [← tailOk_cons w line rest hlen] at ih
      cases hrec : parseLines w rest with
      | ok t =>
        simp only [hrec]
        constructor
        · intro h; cases h
        · intro h
          rw [ih.mpr h] at hrec
          cases hrec
      | error e2 =>
        have he2 : e2 = GridError.invalidGrid := parseLines_error_invalidGrid w rest e2 hrec
        subst he2
        simp only [hrec]
        constructor
        · intro _; exact ih.mp hrec
        · intro _; trivial
    · rename_i hlen
      split
      · rename_i hbreak
        constructor
        · intro h; cases h
        · intro h
          refine absurd (Or.inr ⟨[], ?_, by simp⟩) h
          simp only [List.isEmpty_iff] at hbreak
          rw [hbreak.1, hbreak.2]
          rfl
      · rename_i hbreak
        constructor
        · intro _
          rintro (h | ⟨init, heq, hall⟩)
          · exact hlen (h line (List.mem_cons_self _ _))
          · cases init with
            | nil =>
              simp only [List.nil_append, List.cons.injEq] at heq
              exact hbreak (by simp [heq.1, heq.2])
            | cons i0 init =>
              simp only [List.cons_append, List.cons.injEq] at heq
              exact hlen (heq.1 ▸ hall i0 (List.mem_cons_self _ _))
        · intro _; rfl

/-- C3: parsing fails with `InvalidGrid` exactly when a line after the first
differs in length from the first line, except that one trailing empty line is
forgiven; concretely, `ab\n\n` raises `InvalidGrid` while `ab\n` succeeds with
the empty segment not counted as a row. -/
theorem parse_invalidGrid_characterization :
    (∀ (input first : List Nat) (rest : List (List Nat)),
      input.splitOn NL = first :: rest →
      (Grid.parse input = .error .invalidGrid ↔ ¬ tailOk first.length rest)) ∧
    (∀ (input first : List Nat) (rest : List (List Nat)),
      input.splitOn NL = first :: rest → 0 < first.length → tailOk first.length rest →
      ∃ g, Grid.parse input = .ok g) ∧
    Grid.parse [97, 98, NL, NL] = .error .invalidGrid ∧
    (∃ g, Grid.parse [97, 98, NL] = .ok g ∧ g.height = 1) := by
  have hmain : ∀ (input first : List Nat) (rest : List (List Nat)),
      input.splitOn NL = first :: rest →
      (Grid.parse input = .error .invalidGrid ↔ ¬ tailOk first.length rest) := by
    intro input first rest hsplit
    simp only [Grid.parse, hsplit]
    cases hrec : parseLines first.length rest with
    | error e =>
      have he : e = GridError.invalidGrid := parseLines_error_invalidGrid _ rest e hrec
      subst he
      simp only
      rw [← parseLines_invalidGrid_iff first.length rest, hrec]
      simp
    | ok tail =>
      simp only
      have hok : tailOk first.length rest := by
        by_contra hno
        rw [← parseLines_invalidGrid_iff first.length rest] at hno
        rw [hrec] at hno
        cases hno
      split
      · simp [hok]
      · simp [hok]
  refine ⟨hmain, ?_, ?_, ?_⟩
  · intro input first rest hsplit hw hok
    simp only [Grid.parse, hsplit]
    cases hrec : parseLines first.length rest with
    | error e =>
      exfalso
      have he : e = GridError.invalidGrid := parseLines_error_invalidGrid _ rest e hrec
      subst he
      exact (parseLines_invalidGrid_iff first.length rest).mp hrec hok
    | ok tail =>
      simp only
      rw [if_neg (by omega)]
      exact ⟨_, rfl⟩
  · rfl
  · exact ⟨⟨[97, 98], 2, 1⟩, rfl, rfl⟩

/-- Closed instance of `parse_invalidGrid_characterization`: the input
`a\naa` splits to lines `a`, `aa`, and parsing it raises `InvalidGrid`. -/
theorem parse_invalidGrid_characterization_witness :
    Grid.parse [97, NL, 97, 97] = .error .invalidGrid := by
  refine (parse_invalidGrid_characterization.1 [97, NL, 97, 97] [97] [[97, 97]] rfl).mpr ?_
  rintro (h | ⟨init, heq, hall⟩)
  · exact absurd (h [97, 97] (List.mem_cons_self _ _)) (by decide)
  · cases init with
    | nil => simp at heq
    | cons i0 init =>
      simp only [List.cons_append, List.cons.injEq] at heq
      have h2 := heq.2
      cases init <;> cases h2

-- Joining with a separator, one cons step (nonempty tail).
theorem intercalate_cons_of_ne_nil (a : List Nat) (t : List (List Nat)) (h : t ≠ []) :
    ([NL] : List Nat).intercalate (a :: t) = a ++ [NL] ++ [NL].intercalate t := by
  cases t with
  | nil => cases h rfl
  | cons b t2 => simp [List.intercalate, List.intersperse]

-- Appending one empty piece appends exactly one separator.
theorem intercalate_concat_nil (rows : List (List Nat)) (h : rows ≠ []) :
    ([NL] : List Nat).intercalate (rows ++ [[]]) = [NL].intercalate rows ++ [NL] := by
  induction rows with
  | nil => cases h rfl
  | cons a t ih =>
    cases t with
    | nil => simp [List.intercalate, List.intersperse]
    | cons b t2 =>
      rw [List.cons_append, intercalate_cons_of_ne_nil a (b :: t2 ++ [[]]) (by simp),
        intercalate_cons_of_ne_nil a (b :: t2) (by cases t2 <;> simp), ih (by simp)]
      simp

-- A block of lines that all have the expected width is accepted whole.
theorem parseLines_all_ok (w : Nat) :
    ∀ body : List (List Nat), (∀ l ∈ body, l.length = w) →
      parseLines w body = .ok body.flatten := by
  intro body
  induction body with
  | nil => intro _; rfl
  | cons l t ih =>
    intro h
    have hl : l.length = w := h l (List.mem_cons_self _ _)
    have ht := ih (fun x hx => h x (List.mem_cons_of_mem _ hx))
    simp [parseLines, hl, ht]

-- Such a block followed by the single permitted trailing empty line is also
-- accepted, and the empty line contributes nothing.
theorem parseLines_trailing_ok (w : Nat) (hw : 0 < w) :
    ∀ body : List (List Nat), (∀ l ∈ body, l.length = w) →
      parseLines w (body ++ [[]]) = .ok body.flatten := by
  intro body
  induction body with
  | nil =>
    intro _
    simp [parseLines, hw.ne]
  | cons l t ih =>
    intro h
    have hl : l.length = w := h l (List.mem_cons_self _ _)
    have ht := ih (fun x hx => h x (List.mem_cons_of_mem _ hx))
    simp [parseLines, hl, ht]

-- Formatting the concatenation of uniform rows reproduces the newline-joined
-- text with a trailing newline.
theorem formatChunks_flatten (w : Nat) (hw : 0 < w) :
    ∀ rows : List (List Nat), rows ≠ [] → (∀ r ∈ rows, r.length = w) →
      formatChunks w rows.flatten = [NL].intercalate rows ++ [NL] := by
  intro rows
  induction rows with
  | nil => intro h; cases h rfl
  | cons r t ih =>
    intro _ h
    have hr : r.length = w := h r (List.mem_cons_self _ _)
    have hrne : r ≠ [] := by
      intro hemp
      rw [hemp] at hr
      simp at hr
      omega
    cases t with
    | nil =>
      rw [formatChunks]
      simp only [List.flatten_cons, List.flatten_nil, List.append_nil]
      rw [if_neg hrne, if_neg hw.ne', ← hr, List.take_length, List.drop_length, formatChunks]
      simp [List.intercalate, List.intersperse]
    | cons b t2 =>
      have hflat : (r :: b :: t2).flatten = r ++ (b :: t2).flatten := List.flatten_cons ..
      rw [formatChunks, hflat]
      have hne2 : r ++ (b :: t2).flatten ≠ [] := by
        intro hemp
        rcases List.append_eq_nil.mp hemp with ⟨h1, _⟩
        exact hrne h1
      rw [if_neg hne2, if_neg hw.ne', ← hr, List.take_left, List.drop_left, hr,
        ih (by simp) (fun x hx => h x (List.mem_cons_of_mem _ hx)),
        intercalate_cons_of_ne_nil r (b :: t2) (by simp)]
      simp

/-- C2: for every ASCII grid text `s` (uniform positive row length, rows free
of newline bytes, at most one optional trailing newline), `parse` succeeds and
`format_ascii` reproduces `s` with the trailing newline normalized to exactly
one. -/
theorem parse_format_roundtrip :
    ∀ (rows : List (List Nat)) (w : Nat) (s : List Nat),
      rows ≠ [] → 0 < w →
      (∀ r ∈ rows, r.length = w) →
      (∀ r ∈ rows, ∀ b ∈ r, b ≤ 127 ∧ b ≠ NL) →
      (s = [NL].intercalate rows ∨ s = [NL].intercalate rows ++ [NL]) →
      ∃ g, Grid.parse s = .ok g ∧
        g.format_ascii = some ([NL].intercalate rows ++ [NL]) := by
  intro rows w s hne hw hlen hb hs
  have hnomem : ∀ l ∈ rows, NL ∉ l := fun l hl hmem => (hb l hl NL hmem).2 rfl
  cases rows with
  | nil => cases hne rfl
  | cons first rtail =>
  have hfw : first.length = w := hlen first (List.mem_cons_self _ _)
  have hfw0 : first.length ≠ 0 := by omega
  have htaillen : ∀ l ∈ rtail, l.length = first.length := by
    intro l hl
    rw [hfw]
    exact hlen l (List.mem_cons_of_mem _ hl)
  have hsplit : s.splitOn NL = first :: rtail ∨ s.splitOn NL = first :: (rtail ++ [[]]) := by
    rcases hs with hs | hs
    · left
      rw [hs]
      exact List.splitOn_intercalate (first :: rtail) NL hnomem hne
    · right
      rw [hs, ← intercalate_concat_nil (first :: rtail) hne]
      have : (first :: rtail) ++ [[]] = first :: (rtail ++ [[]]) := by simp
      rw [this]
      refine List.splitOn_intercalate (first :: (rtail ++ [[]])) NL ?_ (by simp)
      intro l hl
      rcases List.mem_cons.mp hl with h1 | h1
      · exact hnomem l (h1 ▸ List.mem_cons_self _ _)
      · rcases List.mem_append.mp h1 with h2 | h2
        · exact hnomem l (List.mem_cons_of_mem _ h2)
        · simp only [List.mem_singleton] at h2
          rw [h2]
          simp
  have hpl : parseLines first.length rtail = .ok rtail.flatten ∨
      parseLines first.length (rtail ++ [[]]) = .ok rtail.flatten := by
    exact Or.inl (parseLines_all_ok first.length rtail htaillen)
  have hparse : Grid.parse s =
      .ok ⟨first ++ rtail.flatten, first.length,
        (first ++ rtail.flatten).length / first.length⟩ := by
    rcases hsplit with hsp | hsp
    · simp only [Grid.parse, hsp, parseLines_all_ok first.length rtail htaillen]
      rw [if_neg hfw0]
    · simp only [Grid.parse, hsp,
        parseLines_trailing_ok first.length (by omega) rtail htaillen]
      rw [if_neg hfw0]
  refine ⟨_, hparse, ?_⟩
  have hflat : first ++ rtail.flatten = (first :: rtail).flatten := (List.flatten_cons ..).symm
  have hascii : (first ++ rtail.flatten).all (fun b => b ≤ 127) = true := by
    rw [List.all_eq_true]
    intro b hbmem
    rw [hflat] at hbmem
    rcases List.mem_flatten.mp hbmem with ⟨l, hl, hbl⟩
    exact decide_eq_true (hb l hl b hbl).1
  simp only [Grid.format_ascii, hascii, if_true]
  rw [hflat, hfw, formatChunks_flatten w hw (first :: rtail) hne hlen]

/-- Closed instance of `parse_format_roundtrip`: the text `ab\ncd` (no
trailing newline) parses and formats back to `ab\ncd\n`. -/
theorem parse_format_roundtrip_witness :
    ∃ g, Grid.parse [97, 98, NL, 99, 100] = .ok g ∧
      g.format_ascii = some [97, 98, NL, 99, 100, NL] := by
  have h := parse_format_roundtrip [[97, 98], [99, 100]] 2 [97, 98, NL, 99, 100]
    (by simp) (by omega) (by decide) (by decide) (Or.inl (by decide))
  have he : ([NL] : List Nat).intercalate [[97, 98], [99, 100]] ++ [NL] =
      [97, 98, NL, 99, 100, NL] := by decide
  rw [he] at h
  exact h

-- `str::find` returning no match means no character satisfies the predicate.
theorem findCharIdx_eq_none (p : Char → Bool) :
    ∀ l : List Char, findCharIdx p l = none → ∀ c ∈ l, p c = false := by
  intro l
  induction l with
  | nil => intro _ c hc; cases hc
  | cons a t ih =>
    intro h c hc
    simp only [findCharIdx] at h
    split at h
    · cases h
    · rename_i hpa
      rcases List.mem_cons.mp hc with h1 | h1
      · rcases Bool.eq_false_or_eq_true (p c) with hb | hb
        · rw [h1] at hb
          exact absurd hb hpa
        · exact hb
      · cases hfind : findCharIdx p t with
        | none => exact ih hfind c h1
        | some j => rw [hfind] at h; cases h

-- A successful `str::find` splits the text into a matchless prefix, the
-- matching character, and the rest.
theorem findCharIdx_eq_some (p : Char → Bool) :
    ∀ (l : List Char) (i : Nat), findCharIdx p l = some i →
      ∃ a c b, l = a ++ c :: b ∧ a.length = i ∧ (∀ x ∈ a, p x = false) ∧ p c = true := by
  intro l
  induction l with
  | nil => intro i h; cases h
  | cons a t ih =>
    intro i h
    simp only [findCharIdx] at h
    split at h
    · rename_i hpa
      cases h
      exact ⟨[], a, t, rfl, rfl, ⟨fun x hx => absurd hx (List.not_mem_nil x), hpa⟩⟩
    · rename_i hpa
      cases hfind : findCharIdx p t with
      | none => rw [hfind] at h; cases h
      | some j =>
        rw [hfind] at h
        simp only [Option.map_some'] at h
        cases h
        rcases ih j hfind with ⟨a2, c, b, hteq, hlen, hall, hpc⟩
        refine ⟨a :: a2, c, b, by rw [hteq]; simp, by simp [hlen], ?_, hpc⟩
        intro x hx
        rcases List.mem_cons.mp hx with h1 | h1
        · rcases Bool.eq_false_or_eq_true (p x) with hb | hb
          · rw [h1] at hb
            exact absurd hb hpa
          · exact hb
        · exact hall x h1

-- Conversely, `str::find` on such a split finds the matching character.
theorem findCharIdx_append (p : Char → Bool) :
    ∀ (a : List Char) (d : Char) (b : List Char), (∀ x ∈ a, p x = false) → p d = true →
      findCharIdx p (a ++ d :: b) = some a.length := by
  intro a d b
  induction a with
  | nil => intro _ hd; simp [findCharIdx, hd]
  | cons x a2 ih =>
    intro ha hd
    have hx : p x = false := ha x (List.mem_cons_self _ _)
    have ih2 := ih (fun y hy => ha y (List.mem_cons_of_mem _ hy)) hd
    simp [findCharIdx, hx, ih2]

-- The byte count consumed by `find(|c| !p(c)).unwrap_or(len)` is the length
-- of the maximal `p`-run.
theorem findCharIdx_not_getD (p : Char → Bool) :
    ∀ b : List Char,
      (findCharIdx (fun c => !p c) b).getD b.length = (b.takeWhile p).length := by
  intro b
  induction b with
  | nil => rfl
  | cons c t ih =>
    by_cases hc : p c
    · have h1 : findCharIdx (fun c => !p c) (c :: t) =
          (findCharIdx (fun c => !p c) t).map (· + 1) := by
        simp [findCharIdx, hc]
      rw [h1, List.takeWhile_cons_of_pos hc]
      cases hfind : findCharIdx (fun c => !p c) t with
      | none =>
        rw [hfind] at ih
        simp only [Option.getD_none] at ih
        simp [ih]
      | some j =>
        rw [hfind] at ih
        simp only [Option.getD_some] at ih
        simp [ih]
    · have hc2 : (!p c) = true := by simpa using hc
      simp [findCharIdx, hc2, List.takeWhile_cons_of_neg hc]

-- Taking the length of the maximal run takes exactly the run.
theorem take_takeWhile_length (p : Char → Bool) :
    ∀ b : List Char, b.take (b.takeWhile p).length = b.takeWhile p := by
  intro b
  induction b with
  | nil => rfl
  | cons c t ih =>
    by_cases hc : p c
    · simp [List.takeWhile_cons_of_pos hc, ih]
    · simp [List.takeWhile_cons_of_neg hc]

-- Dropping the length of the maximal run leaves the `dropWhile` suffix.
theorem drop_takeWhile_length (p : Char → Bool) :
    ∀ b : List Char, b.drop (b.takeWhile p).length = b.dropWhile p := by
  intro b
  induction b with
  | nil => rfl
  | cons c t ih =>
    by_cases hc : p c
    · simp [List.takeWhile_cons_of_pos hc, List.dropWhile_cons_of_pos hc, ih]
    · simp [List.takeWhile_cons_of_neg hc, List.dropWhile_cons_of_neg hc]

-- The look-behind position `index - 1` reads the last character of the
-- prefix before the found digit.
theorem get_pred_length (a : List Char) (r : List Char) (h : a ≠ []) :
    (a ++ r).get? (a.length - 1) = a.getLast? := by
  have hlt : a.length - 1 < a.length := by
    have := List.length_pos.mpr h
    omega
  rw [List.get?_eq_getElem?, List.getElem?_append, if_pos hlt, List.getLast?_eq_getElem?]

-- One full `next` step on a text whose first digit `d` follows the digitless
-- prefix `a`: the token is the maximal run from `d`, preceded by `'-'`
-- exactly when `a` ends in `'-'`, and the remainder is what follows the run.
theorem next_step (a : List Char) (d : Char) (b : List Char)
    (ha : ∀ x ∈ a, isAsciiDigit x = false) (hd : isAsciiDigit d = true) :
    ExtractNumbers.next ⟨a ++ d :: b⟩ =
      (some ((if a.getLast? = some '-' then ['-'] else []) ++
          d :: b.takeWhile isAsciiDigit),
        ⟨b.dropWhile isAsciiDigit⟩) := by
  have hfind := findCharIdx_append isAsciiDigit a d b ha hd
  have hrem : (a ++ d :: b).drop (a.length + 1) = b := by
    have h1 : (a ++ d :: b).drop (a.length + 1) = (d :: b).drop 1 := List.drop_append 1
    rw [h1]
    rfl
  have hstop : (a.length + 1) +
      ((findCharIdx (fun c => !isAsciiDigit c) ((a ++ d :: b).drop (a.length + 1))).getD
        ((a ++ d :: b).drop (a.length + 1)).length) =
      a.length + 1 + (b.takeWhile isAsciiDigit).length := by
    rw [hrem, findCharIdx_not_getD]
  simp only [ExtractNumbers.next, hfind, hstop]
  by_cases hminus : a.getLast? = some '-'
  · rcases List.getLast?_eq_some_iff.mp hminus with ⟨a0, ha0⟩
    have hane : a ≠ [] := by rw [ha0]; simp
    have hcond : 0 < a.length ∧ (a ++ d :: b).get? (a.length - 1) = some '-' := by
      constructor
      · have := List.length_pos.mpr hane
        omega
      · rw [get_pred_length a (d :: b) hane, hminus]
    rw [if_pos hcond, if_pos hminus]
    have hlen0 : a.length - 1 = a0.length := by rw [ha0]; simp
    have hdrop_start : (a ++ d :: b).drop (a.length - 1) = '-' :: d :: b := by
      rw [hlen0, ha0, List.append_assoc, List.drop_left]
      rfl
    have htake : (a.length + 1 + (b.takeWhile isAsciiDigit).length) - (a.length - 1) =
        (b.takeWhile isAsciiDigit).length + 2 := by
      have := List.length_pos.mpr hane
      omega
    rw [hdrop_start, htake]
    have hdrop_stop : (a ++ d :: b).drop (a.length + 1 + (b.takeWhile isAsciiDigit).length) =
        b.dropWhile isAsciiDigit := by
      have h1 : a.length + 1 + (b.takeWhile isAsciiDigit).length =
          a.length + ((b.takeWhile isAsciiDigit).length + 1) := by omega
      rw [h1, List.drop_append, List.drop_succ_cons, drop_takeWhile_length]
    rw [hdrop_stop]
    have htake2 : ('-' :: d :: b).take ((b.takeWhile isAsciiDigit).length + 2) =
        '-' :: d :: b.takeWhile isAsciiDigit := by
      rw [show (b.takeWhile isAsciiDigit).length + 2 =
          ((b.takeWhile isAsciiDigit).length + 1) + 1 from rfl,
        List.take_succ_cons, List.take_succ_cons, take_takeWhile_length]
    rw [htake2]
    rfl
  · have hcond : ¬(0 < a.length ∧ (a ++ d :: b).get? (a.length - 1) = some '-') := by
      rintro ⟨hpos, hget⟩
      have hane : a ≠ [] := by
        intro h
        rw [h] at hpos
        simp at hpos
      rw [get_pred_length a (d :: b) hane] at hget
      exact hminus hget
    rw [if_neg hcond, if_neg hminus]
    have hdrop_start : (a ++ d :: b).drop a.length = d :: b := by
      rw [List.drop_left]
    have htake : (a.length + 1 + (b.takeWhile isAsciiDigit).length) - a.length =
        (b.takeWhile isAsciiDigit).length + 1 := by omega
    rw [hdrop_start, htake]
    have hdrop_stop : (a ++ d :: b).drop (a.length + 1 + (b.takeWhile isAsciiDigit).length) =
        b.dropWhile isAsciiDigit := by
      have h1 : a.length + 1 + (b.takeWhile isAsciiDigit).length =
          a.length + ((b.takeWhile isAsciiDigit).length + 1) := by omega
      rw [h1, List.drop_append, List.drop_succ_cons, drop_takeWhile_length]
    rw [hdrop_stop]
    have htake2 : (d :: b).take ((b.takeWhile isAsciiDigit).length + 1) =
        d :: b.takeWhile isAsciiDigit := by
      rw [List.take_succ_cons, take_takeWhile_length]
    rw [htake2]
    rfl

-- The reference scanner takes the same step on such a split.
theorem specScan_step :
    ∀ (a : List Char) (d : Char) (b : List Char),
      (∀ x ∈ a, isAsciiDigit x = false) → isAsciiDigit d = true →
      specScan (a ++ d :: b) =
        ((if a.getLast? = some '-' then ['-'] else []) ++
            d :: b.takeWhile isAsciiDigit)
          :: specScan (b.dropWhile isAsciiDigit) := by
  intro a
  induction a with
  | nil =>
    intro d b _ hd
    simp only [List.nil_append]
    rw [specScan, if_pos hd]
    simp [List.takeWhile_cons_of_pos hd, List.dropWhile_cons_of_pos hd]
  | cons x a2 ih =>
    intro d b ha hd
    have hx : isAsciiDigit x = false := ha x (List.mem_cons_self _ _)
    have ha2 : ∀ y ∈ a2, isAsciiDigit y = false :=
      fun y hy => ha y (List.mem_cons_of_mem _ hy)
    have ih2 := ih d b ha2 hd
    rw [List.cons_append, specScan, if_neg (by simp [hx])]
    cases a2 with
    | nil =>
      by_cases hxm : x = '-'
      · rw [if_pos ⟨hxm, by simp [hd]⟩]
        subst hxm
        simp [List.takeWhile_cons_of_pos hd, List.dropWhile_cons_of_pos hd]
      · rw [if_neg (by rintro ⟨h1, _⟩; exact hxm h1)]
        rw [List.nil_append] at ih2 ⊢
        rw [ih2]
        have hlast : (x :: ([] : List Char)).getLast? = some x := rfl
        rw [hlast, if_neg (fun hcon => hxm (Option.some.inj hcon))]
        simp
    | cons y a3 =>
      have hy : isAsciiDigit y = false := ha2 y (List.mem_cons_self _ _)
      rw [if_neg (by rintro ⟨_, h2⟩; simp [hy] at h2)]
      rw [ih2, List.getLast?_cons_cons]

-- A text without digits produces nothing.
theorem specScan_no_digit :
    ∀ l : List Char, (∀ c ∈ l, isAsciiDigit c = false) → specScan l = [] := by
  intro l
  induction l with
  | nil => intro _; simp [specScan]
  | cons c rest ih =>
    intro h
    have hc : isAsciiDigit c = false := h c (List.mem_cons_self _ _)
    rw [specScan, if_neg (by simp [hc])]
    have hcond : ¬(c = '-' ∧ rest.head?.any isAsciiDigit = true) := by
      rintro ⟨_, hany⟩
      cases rest with
      | nil => simp [List.head?_nil] at hany
      | cons r2 t2 =>
        have hr2 : isAsciiDigit r2 = false :=
          h r2 (List.mem_cons_of_mem _ (List.mem_cons_self _ _))
        simp [List.head?_cons, hr2] at hany
    rw [if_neg hcond]
    exact ih (fun x hx => h x (List.mem_cons_of_mem _ hx))

-- Draining the scanner with enough fuel computes the reference scan.
theorem collect_eq_specScan :
    ∀ (fuel : Nat) (s : List Char), s.length < fuel →
      ExtractNumbers.collect fuel ⟨s⟩ = specScan s := by
  intro fuel
  induction fuel with
  | zero => intro s h; omega
  | succ fuel ih =>
    intro s hlen
    cases hfind : findCharIdx isAsciiDigit s with
    | none =>
      have hnone : ∀ c ∈ s, isAsciiDigit c = false := findCharIdx_eq_none _ s hfind
      simp only [ExtractNumbers.collect, ExtractNumbers.next, hfind]
      exact (specScan_no_digit s hnone).symm
    | some i =>
      rcases findCharIdx_eq_some _ s i hfind with ⟨a, d, b, hseq, _, ha, hd⟩
      subst hseq
      rw [specScan_step a d b ha hd]
      have hstep := next_step a d b ha hd
      simp only [ExtractNumbers.collect, hstep]
      congr 1
      apply ih
      have hdw : (b.dropWhile isAsciiDigit).length ≤ b.length :=
        List.Sublist.length_le (List.dropWhile_sublist isAsciiDigit)
      have hab : (a ++ d :: b).length = a.length + (b.length + 1) := by simp
      omega

/-- C9: the scanner yields exactly the maximal ASCII digit runs of the text in
left-to-right order, a run being prefixed by `'-'` exactly when a `'-'`
immediately precedes its first digit in the remaining text (`specScan` states
this reference behaviour); a text without digits yields nothing, and
`"7-7-23+123-56"` yields `7, -7, -23, 123, -56`. -/
theorem extract_numbers_behaviour :
    (∀ s : List Char, ExtractNumbers.collect (s.length + 1) ⟨s⟩ = specScan s) ∧
    (∀ s : List Char, (∀ c ∈ s, isAsciiDigit c = false) →
      ExtractNumbers.collect (s.length + 1) ⟨s⟩ = []) ∧
    ExtractNumbers.collect 14 ⟨"7-7-23+123-56".toList⟩ =
      [['7'], ['-', '7'], ['-', '2', '3'], ['1', '2', '3'], ['-', '5', '6']] := by
  refine ⟨fun s => collect_eq_specScan (s.length + 1) s (by omega), ?_, ?_⟩
  · intro s h
    rw [collect_eq_specScan (s.length + 1) s (by omega)]
    exact specScan_no_digit s h
  · rfl

/-- Closed instance of `extract_numbers_behaviour`: a digitless text yields
the empty token sequence. -/
theorem extract_numbers_behaviour_witness :
    ExtractNumbers.collect 4 ⟨['a', 'b', 'c']⟩ = [] := by
  exact extract_numbers_behaviour.2.1 ['a', 'b', 'c'] (by decide)

-- Every character encodes to at least one byte.
theorem utf8Bytes_length_pos (c : Char) : 0 < (utf8Bytes c).length := by
  by_cases h1 : c.toNat < 128
  · simp [utf8Bytes, h1]
  · by_cases h2 : c.toNat < 2048
    · simp [utf8Bytes, h1, h2]
    · by_cases h3 : c.toNat < 65536
      · simp [utf8Bytes, h1, h2, h3]
      · simp [utf8Bytes, h1, h2, h3]

-- An ASCII character encodes to exactly its own single byte.
theorem utf8Bytes_ascii (c : Char) (h : c.toNat < 128) : utf8Bytes c = [c.toNat] := by
  simp [utf8Bytes, h]

-- Every byte of a multi-byte (non-ASCII) encoding is at least 128, so none
-- of them can be mistaken for the ASCII byte `b'-'`.
theorem utf8Bytes_nonascii (c : Char) (h : 128 ≤ c.toNat) :
    ∀ x ∈ utf8Bytes c, 128 ≤ x := by
  intro x hx
  simp only [utf8Bytes] at hx
  rw [if_neg (by omega)] at hx
  by_cases h2 : c.toNat < 2048
  · rw [if_pos h2] at hx
    simp only [List.mem_cons, List.not_mem_nil, or_false] at hx
    rcases hx with h | h <;> omega
  · rw [if_neg h2] at hx
    by_cases h3 : c.toNat < 65536
    · rw [if_pos h3] at hx
      simp only [List.mem_cons, List.not_mem_nil, or_false] at hx
      rcases hx with h | h | h <;> omega
    · rw [if_neg h3] at hx
      simp only [List.mem_cons, List.not_mem_nil, or_false] at hx
      rcases hx with h | h | h | h <;> omega

-- Byte sequences and byte lengths distribute over string concatenation.
theorem strBytes_append (l1 l2 : List Char) :
    strBytes (l1 ++ l2) = strBytes l1 ++ strBytes l2 := by
  simp [strBytes]

theorem byteLen_append (l1 l2 : List Char) :
    byteLen (l1 ++ l2) = byteLen l1 + byteLen l2 := by
  simp [byteLen, strBytes_append]

theorem byteLen_cons (c : Char) (l : List Char) :
    byteLen (c :: l) = (utf8Bytes c).length + byteLen l := by
  simp [byteLen, strBytes]

-- A successful byte-index `find` splits the text at a character boundary:
-- matchless prefix, matching character, rest.
theorem findByteIdx_eq_some (p : Char → Bool) :
    ∀ (l : List Char) (i : Nat), findByteIdx p l = some i →
      ∃ a c b, l = a ++ c :: b ∧ byteLen a = i ∧ (∀ x ∈ a, p x = false) ∧ p c = true := by
  intro l
  induction l with
  | nil => intro i h; cases h
  | cons a t ih =>
    intro i h
    simp only [findByteIdx] at h
    split at h
    · rename_i hpa
      cases h
      refine ⟨[], a, t, rfl, ?_, fun x hx => absurd hx (List.not_mem_nil x), hpa⟩
      simp [byteLen, strBytes]
    · rename_i hpa
      cases hfind : findByteIdx p t with
      | none => rw [hfind] at h; cases h
      | some j =>
        rw [hfind] at h
        simp only [Option.map_some'] at h
        cases h
        rcases ih j hfind with ⟨a2, c, b, hteq, hlen2, hall, hpc⟩
        refine ⟨a :: a2, c, b, by rw [hteq]; simp, by rw [byteLen_cons, hlen2], ?_, hpc⟩
        intro x hx
        rcases List.mem_cons.mp hx with h1 | h1
        · rcases Bool.eq_false_or_eq_true (p x) with hb | hb
          · rw [h1] at hb
            exact absurd hb hpa
          · exact hb
        · exact hall x h1

-- The scalar-value bounds of an ASCII digit.
theorem isAsciiDigit_toNat (d : Char) (h : isAsciiDigit d = true) :
    48 ≤ d.toNat ∧ d.toNat ≤ 57 := by
  simpa [isAsciiDigit] using h

/-- C10: for every well-formed text, whenever `next` finds a digit at byte
index `index`, every slice boundary it computes is in bounds and on a UTF-8
character boundary, and the `index - 1` look-behind is only taken for
`index > 0` (`SafeStep`); moreover once `next` returns `None` the remainder
has been set to the empty string, so every later call also returns `None`. -/
theorem next_slice_safety :
    (∀ (s : List Char) (index : Nat),
      findByteIdx isAsciiDigit s = some index → SafeStep s index) ∧
    (∀ s : ExtractNumbers, (s.next).1 = none →
      (s.next).2 = ⟨[]⟩ ∧ ((s.next).2).next = (none, ⟨[]⟩)) := by
  constructor
  · intro s index hfind
    rcases findByteIdx_eq_some _ s index hfind with ⟨a, d, b, hseq, hlen, ha, hd⟩
    have hd128 : d.toNat < 128 := by
      have := isAsciiDigit_toNat d hd
      omega
    have hdbytes : utf8Bytes d = [d.toNat] := utf8Bytes_ascii d hd128
    have hslen : byteLen s = index + 1 + byteLen b := by
      rw [hseq, byteLen_append, byteLen_cons, hdbytes, hlen]
      simp only [List.length_cons, List.length_nil]
      omega
    have hstop_le : scanStop index b ≤ byteLen s := by
      unfold scanStop
      cases hf2 : findByteIdx (fun c => !isAsciiDigit c) b with
      | none => simp [hslen]
      | some j =>
        rcases findByteIdx_eq_some _ b j hf2 with ⟨b1, e, b2, hbeq, hblen, _, _⟩
        have hbl : byteLen b = j + ((utf8Bytes e).length + byteLen b2) := by
          rw [hbeq, byteLen_append, byteLen_cons, hblen]
        have hepos := utf8Bytes_length_pos e
        simp only [Option.getD_some]
        omega
    have hstop_bound : IsBoundary s (scanStop index b) := by
      unfold scanStop
      cases hf2 : findByteIdx (fun c => !isAsciiDigit c) b with
      | none =>
        refine ⟨s, [], by simp, ?_⟩
        simp [hslen]
      | some j =>
        rcases findByteIdx_eq_some _ b j hf2 with ⟨b1, e, b2, hbeq, hblen, _, _⟩
        refine ⟨a ++ d :: b1, e :: b2, ?_, ?_⟩
        · rw [hseq, hbeq]
          simp
        · rw [byteLen_append, byteLen_cons, hdbytes, hlen, hblen]
          simp only [List.length_cons, List.length_nil, Option.getD_some]
          omega
    refine ⟨a, d, b, hseq, hlen, hd, ?_, ?_, hstop_bound, ?_, hstop_le, ?_⟩
    · refine ⟨a ++ [d], b, by rw [hseq]; simp, ?_⟩
      rw [byteLen_append, hlen, byteLen_cons, hdbytes]
      simp [byteLen, strBytes]
    · unfold scanStart
      split
      · rename_i hcond
        rcases hcond with ⟨hpos, hget⟩
        rcases List.eq_nil_or_concat a with hnil | ⟨a0, cl, ha0⟩
        · rw [hnil] at hlen
          simp [byteLen, strBytes] at hlen
          omega
        · rw [List.concat_eq_append] at ha0
          have hsplit_a : strBytes a = strBytes a0 ++ utf8Bytes cl := by
            rw [ha0, strBytes_append]
            simp [strBytes]
          have hlen_a : index = byteLen a0 + (utf8Bytes cl).length := by
            rw [← hlen, ha0, byteLen_append, byteLen_cons]
            simp only [byteLen, strBytes, List.map_nil, List.flatten_nil, List.length_nil]
            omega
          have hget_a : (strBytes a).get? (index - 1) = some 45 := by
            rw [hseq, strBytes_append] at hget
            rw [List.get?_eq_getElem?] at hget ⊢
            rwa [List.getElem?_append, if_pos (by
              show index - 1 < (strBytes a).length
              have : (strBytes a).length = index := hlen
              omega)] at hget
          have hget_cl : (utf8Bytes cl).get? ((utf8Bytes cl).length - 1) = some 45 := by
            rw [hsplit_a] at hget_a
            rw [List.get?_eq_getElem?] at hget_a ⊢
            have hlen_a0 : (strBytes a0).length = byteLen a0 := rfl
            have hclpos := utf8Bytes_length_pos cl
            rw [List.getElem?_append_right (by omega)] at hget_a
            rw [← hget_a]
            congr 1
            have := utf8Bytes_length_pos cl
            omega
          have hcl_small : cl.toNat < 128 := by
            by_contra hbig
            have h45 : (45 : Nat) ∈ utf8Bytes cl := by
              have := List.get?_mem hget_cl
              exact this
            have := utf8Bytes_nonascii cl (by omega) 45 h45
            omega
          have hcl_one : (utf8Bytes cl).length = 1 := by
            rw [utf8Bytes_ascii cl hcl_small]
            rfl
          refine ⟨a0, cl :: d :: b, ?_, ?_⟩
          · rw [hseq, ha0]
            simp
          · omega
      · exact ⟨a, d :: b, hseq, hlen⟩
    · unfold scanStart scanStop
      split <;> omega
    · intro h0
      unfold scanStart
      rw [if_neg (by omega)]
  · intro s h
    cases hfind : findCharIdx isAsciiDigit s.remainder with
    | some i =>
      exfalso
      simp only [ExtractNumbers.next, hfind] at h
      cases h
    | none =>
      constructor
      · simp only [ExtractNumbers.next, hfind]
      · simp only [ExtractNumbers.next, hfind]
        rfl

/-- Closed instance of `next_slice_safety`: the text `"5"` has its first digit
at byte index 0 and the step is safe there; exhausting the scanner on `"x"`
empties the remainder. -/
theorem next_slice_safety_witness :
    SafeStep ['5'] 0 ∧ (ExtractNumbers.next ⟨['x']⟩).2 = ⟨[]⟩ := by
  refine ⟨next_slice_safety.1 ['5'] 0 (by decide), ?_⟩
  exact (next_slice_safety.2 ⟨['x']⟩ (by decide)).1

end Aoclib
